import Mathlib

/-!
Verification of the combinatorial probability engine of the liar's-poker
repository (`hand_probability.py`).

The Python module is shallowly embedded below:

* machine-free exact integers are modelled by `Int` / `Nat`;
* Python's real arithmetic on probabilities (exact integer division promoted
  to `float`) is modelled exactly over `ℚ`;
* code that can raise `ValueError` is modelled in `Except String`;
* `itertools.product`, `range`, `zip`, `sum` and `math.prod` are modelled by
  the corresponding list operations.
-/

namespace LiarsPoker

/-- Models `math.comb` from the Python standard library: it raises `ValueError`
for a negative argument and otherwise returns the binomial coefficient
(`0` when `k` exceeds `n`). -/
def math_comb (n k : Int) : Except String Nat :=
  if n < 0 ∨ k < 0 then Except.error "n and k must be non-negative integers"
  else Except.ok (n.toNat.choose k.toNat)

/-- Embeds `HandProbability._k_from_n_combinations`: return `0` when `k` lies
outside `[0, n]`, otherwise delegate to `math.comb`, propagating any failure
(`k_from_n_combinations_eq_ok` below proves no failure can occur). -/
def k_from_n_combinations (n k : Int) : Except String Nat :=
  if k < 0 ∨ k > n then Except.ok 0
  else math_comb n k

/-- The (total) value computed by `_k_from_n_combinations`.  The lemma
`k_from_n_combinations_eq_ok` shows the source function always succeeds and
returns exactly this value, so the engine below is embedded using `kfn`. -/
def kfn (n k : Int) : Nat :=
  if k < 0 ∨ k > n then 0 else n.toNat.choose k.toNat

theorem k_from_n_combinations_eq_ok (n k : Int) :
    k_from_n_combinations n k = Except.ok (kfn n k) := by
  unfold k_from_n_combinations kfn math_comb
  by_cases h : k < 0 ∨ k > n
  · simp [h]
  · have h2 : ¬(n < 0 ∨ k < 0) := by omega
    simp [h, h2]

/-- Embeds the `DeckInfo` record: total deck size, cards per rank, cards per
suit.  The Python constructor performs no validation. -/
structure DeckInfo where
  deck_size : Int
  cards_of_rank_count : Int
  cards_of_suit_count : Int
  deriving DecidableEq

/-- Embeds `DeckInfo.__init__`, which only stores its three arguments and can
never raise. -/
def DeckInfo.init (deck_size cards_of_rank_count cards_of_suit_count : Int) :
    Except String DeckInfo :=
  Except.ok ⟨deck_size, cards_of_rank_count, cards_of_suit_count⟩

/-- Embeds the `CardRequirement` record: at least `at_least` of the `out_of`
cards of one disjoint category must be present in the draw. -/
structure CardRequirement where
  at_least : Int
  out_of : Int
  deriving DecidableEq

/-- Embeds `CardRequirement.__init__`, which validates its arguments and
raises `ValueError` for negative counts or when `at_least > out_of`. -/
def CardRequirement.init (at_least out_of : Int) : Except String CardRequirement :=
  if at_least < 0 ∨ out_of < 0 then
    Except.error "at_least and out_of must be positive"
  else if at_least > out_of then
    Except.error "at_least must be less than or equal to out_of"
  else
    Except.ok ⟨at_least, out_of⟩

/-- A requirement satisfying the documented invariant `0 ≤ at_least ≤ out_of`
(exactly the arguments accepted by `CardRequirement.__init__`). -/
def CardRequirement.Valid (r : CardRequirement) : Prop :=
  0 ≤ r.at_least ∧ r.at_least ≤ r.out_of

instance (r : CardRequirement) : Decidable r.Valid := by
  unfold CardRequirement.Valid; infer_instance

/-- Embeds the `HandProbability` engine handle: the deck descriptor and the
optional rounding precision captured at construction time. -/
structure HandProbability where
  deck_info : DeckInfo
  digits_of_precision : Option Int := none

/-- Models Python's `range(start, stop)` as the list of integers from `start`
(inclusive) to `stop` (exclusive). -/
def pyRange (start stop : Int) : List Int :=
  (List.range (stop - start).toNat).map fun i : Nat => start + (i : Int)

/-- Models `itertools.product` over a list of integer ranges: the Cartesian
product, last factor varying fastest, each tuple as a list. -/
def cartesianProduct : List (List Int) → List (List Int)
  | [] => [[]]
  | l :: ls => l.flatMap fun x => (cartesianProduct ls).map fun xs => x :: xs

/-- Rounding half to even of a rational to an integer, the tie-breaking rule
used by Python's `round`. -/
def round_half_even (q : ℚ) : Int :=
  if q - ⌊q⌋ < 1 / 2 then ⌊q⌋
  else if 1 / 2 < q - ⌊q⌋ then ⌊q⌋ + 1
  else if ⌊q⌋ % 2 = 0 then ⌊q⌋ else ⌊q⌋ + 1

/-- Models Python's `round(q, d)`: round to `d` decimal digits, half to even.
The exact-rational idealisation of the `float` rounding; the spec states that
the precise tie-breaking rule is not semantically significant. -/
def python_round (q : ℚ) (d : Int) : ℚ :=
  ((round_half_even (q * 10 ^ d) : ℚ)) / 10 ^ d

/-- Models the final line of `probability_func`: return the probability
unrounded when no precision was configured, else rounded. -/
def apply_precision : Option Int → ℚ → ℚ
  | none, q => q
  | some d, q => python_round q d

/-- Embeds `HandProbability.create_probability_func` together with the inner
closure `probability_func` it returns.  Mirrors the source line by line:
`total_cards_checked` and `ranges` are computed once at build time; evaluation
validates the draw size, sums `math.prod(..., start=...)` over
`itertools.product(*ranges)` and divides by `choose(deck_size, m)` (the
division is Python float division of two ints, modelled exactly in `ℚ`; the
guards make the denominator positive, so `ZeroDivisionError` cannot occur and
`_k_from_n_combinations` never raises, see `k_from_n_combinations_eq_ok`). -/
def create_probability_func (h : HandProbability)
    (card_requirements : List CardRequirement) : Int → Except String ℚ :=
  let total_cards_checked : Int := (card_requirements.map fun r => r.out_of).sum
  let ranges : List (List Int) :=
    card_requirements.map fun r => pyRange r.at_least (r.out_of + 1)
  fun selected_cards_count =>
    if selected_cards_count < 0 then
      Except.error "Selected cards count must be non-negative"
    else if selected_cards_count > h.deck_info.deck_size then
      Except.error "Selected cards count must be less than or equal to deck size"
    else
      let numerator : Nat :=
        ((cartesianProduct ranges).map fun card_counts =>
          (((card_requirements.zip card_counts).map fun rc =>
              kfn rc.1.out_of rc.2).foldl (· * ·)
            (kfn (h.deck_info.deck_size - total_cards_checked)
              (selected_cards_count - card_counts.sum)))).sum
      let probability : ℚ :=
        (numerator : ℚ) / (kfn h.deck_info.deck_size selected_cards_count : ℚ)
      Except.ok (apply_precision h.digits_of_precision probability)

/-- Embeds `HandProbability.at_least_of_ranks_probability_function`: one
requirement per entry, all with `cards_of_rank_count` as the total. -/
def at_least_of_ranks_probability_function (h : HandProbability)
    (at_least_of_ranks : List Int) : Int → Except String ℚ :=
  create_probability_func h
    (at_least_of_ranks.map fun k => ⟨k, h.deck_info.cards_of_rank_count⟩)

/-- Embeds `HandProbability.at_least_of_suits_probability_function`. -/
def at_least_of_suits_probability_function (h : HandProbability)
    (at_least_of_suits : List Int) : Int → Except String ℚ :=
  create_probability_func h
    (at_least_of_suits.map fun k => ⟨k, h.deck_info.cards_of_suit_count⟩)

/-- Embeds `HandProbability.unique_cards_probability_function`:
`unique_card_count` copies of the requirement `(1, 1)`. -/
def unique_cards_probability_function (h : HandProbability)
    (unique_card_count : Nat) : Int → Except String ℚ :=
  create_probability_func h (List.replicate unique_card_count ⟨1, 1⟩)

/-- Structured form of the lattice sum computed by `probability_func`: iterate
over the feasible range of the first requirement, weight by its binomial
factor, and recurse, feeding the running count total to `f` at the end. -/
def reqSum : List CardRequirement → (Int → Nat) → Nat
  | [], f => f 0
  | r :: rs, f =>
    ∑ c in Finset.Icc r.at_least r.out_of, kfn r.out_of c * reqSum rs fun s => f (c + s)

/-- The numerator of the single-requirement probability: the number of draws
of `m` cards containing at least `r.at_least` of the `r.out_of` tracked
cards, counted per feasible tracked-count `c`. -/
def single_lattice_sum (D : Int) (r : CardRequirement) (m : Int) : Nat :=
  ∑ c in Finset.Icc r.at_least r.out_of, kfn r.out_of c * kfn (D - r.out_of) (m - c)

lemma sum_list_range {M : Type} [AddCommMonoid M] (n : Nat) (f : Nat → M) :
    ((List.range n).map f).sum = ∑ i in Finset.range n, f i := rfl

lemma sum_pyRange {M : Type} [AddCommMonoid M] (a b : Int) (f : Int → M) :
    ((pyRange a (b + 1)).map f).sum = ∑ c in Finset.Icc a b, f c := by
  rw [Int.Icc_eq_finset_map, Finset.sum_map, pyRange, List.map_map, sum_list_range]
  rfl

lemma foldl_mul_eq (l : List Nat) (a : Nat) : l.foldl (· * ·) a = a * l.prod := by
  induction l generalizing a with
  | nil => simp
  | cons x xs ih => simp [List.foldl_cons, ih, List.prod_cons, mul_assoc]

lemma sum_flatMap {M : Type} [AddCommMonoid M] (l : List Int) (g : Int → List M) :
    (l.flatMap g).sum = ((l.map fun x => (g x).sum)).sum := by
  rw [List.flatMap_def, List.sum_flatten, List.map_map]
  rfl

lemma numerator_eq_reqSum (reqs : List CardRequirement) (f : Int → Nat) :
    ((cartesianProduct (reqs.map fun r => pyRange r.at_least (r.out_of + 1))).map
      fun card_counts =>
        (((reqs.zip card_counts).map fun rc => kfn rc.1.out_of rc.2).foldl (· * ·)
          (f card_counts.sum))).sum = reqSum reqs f := by
  induction reqs generalizing f with
  | nil => simp [cartesianProduct, reqSum]
  | cons r rs ih =>
    rw [List.map_cons, cartesianProduct, List.map_flatMap, sum_flatMap, sum_pyRange, reqSum]
    refine Finset.sum_congr rfl fun c _ => ?_
    rw [List.map_map, ← ih fun s => f (c + s), ← List.sum_map_mul_left]
    refine congrArg List.sum (List.map_congr_left fun cs _ => ?_)
    simp only [Function.comp_apply, List.zip_cons_cons, List.map_cons, List.foldl_cons,
      List.sum_cons, foldl_mul_eq, List.prod_cons]
    ring



lemma kfn_eq_zero {n k : Int} (h : k < 0 ∨ k > n) : kfn n k = 0 := by
  unfold kfn; simp [h]

lemma kfn_eq_choose {n k : Int} (h0 : 0 ≤ k) (h1 : k ≤ n) :
    kfn n k = n.toNat.choose k.toNat := by
  unfold kfn
  have : ¬(k < 0 ∨ k > n) := by omega
  simp [this]

lemma kfn_pos {n k : Int} (h0 : 0 ≤ k) (h1 : k ≤ n) : 0 < kfn n k := by
  rw [kfn_eq_choose h0 h1]
  exact Nat.choose_pos (by omega)

lemma create_probability_func_ok (h : HandProbability) (reqs : List CardRequirement)
    (m : Int) (h0 : 0 ≤ m) (h1 : m ≤ h.deck_info.deck_size) :
    create_probability_func h reqs m =
      Except.ok (apply_precision h.digits_of_precision
        ((reqSum reqs
            (fun s => kfn (h.deck_info.deck_size - (reqs.map fun r => r.out_of).sum) (m - s)) : ℚ) /
          (kfn h.deck_info.deck_size m : ℚ))) := by
  have hn : ¬ (m < 0) := by omega
  have hg : ¬ (m > h.deck_info.deck_size) := by omega
  simp only [create_probability_func]
  rw [if_neg hn, if_neg hg, numerator_eq_reqSum reqs
    fun s => kfn (h.deck_info.deck_size - (reqs.map fun r => r.out_of).sum) (m - s)]

lemma reqSum_eq_zero (reqs : List CardRequirement) (f : Int → Nat)
    (hf : ∀ s : Int, (reqs.map fun r => r.at_least).sum ≤ s → f s = 0) :
    reqSum reqs f = 0 := by
  induction reqs generalizing f with
  | nil => simpa [reqSum] using hf 0 le_rfl
  | cons r rs ih =>
    rw [reqSum]
    refine Finset.sum_eq_zero fun c hc => ?_
    have hc1 : r.at_least ≤ c := (Finset.mem_Icc.mp hc).1
    rw [ih (fun s => f (c + s)) fun s hs => ?_, mul_zero]
    refine hf (c + s) ?_
    simp only [List.map_cons, List.sum_cons]
    omega



lemma one_le_sum_int (l : List Int) (h0 : ∀ x ∈ l, 0 ≤ x) (h1 : ∃ x ∈ l, 1 ≤ x) :
    1 ≤ l.sum := by
  induction l with
  | nil => simp at h1
  | cons x xs ih =>
    simp only [List.mem_cons, List.sum_cons] at *
    obtain ⟨y, hy, hy1⟩ := h1
    have hxs : 0 ≤ xs.sum := List.sum_nonneg fun z hz => h0 z (Or.inr hz)
    rcases hy with rfl | hy
    · omega
    · have hx : 0 ≤ x := h0 x (Or.inl rfl)
      have := ih (fun z hz => h0 z (Or.inr hz)) ⟨y, hy, hy1⟩
      omega

/-- C4: the probability function built from an empty requirement sequence
returns exactly 1 at every valid draw size. -/
theorem empty_requirements_probability_one (h : HandProbability) (m : Int)
    (hd : h.digits_of_precision = none) (h0 : 0 ≤ m) (h1 : m ≤ h.deck_info.deck_size) :
    create_probability_func h [] m = Except.ok 1 := by
  rw [create_probability_func_ok h [] m h0 h1, hd]
  have hpos : 0 < kfn h.deck_info.deck_size m := kfn_pos h0 h1
  have hne : (kfn h.deck_info.deck_size m : ℚ) ≠ 0 := Nat.cast_ne_zero.mpr (by omega)
  simp [reqSum, apply_precision, hne]

theorem empty_requirements_probability_one_witness :
    create_probability_func ⟨⟨24, 4, 6⟩, none⟩ [] 7 = Except.ok 1 :=
  empty_requirements_probability_one ⟨⟨24, 4, 6⟩, none⟩ 7 rfl (by decide) (by decide)

/-- C8: with at least one requirement demanding a card, drawing zero cards
has probability exactly 0. -/
theorem zero_draw_probability_zero (h : HandProbability) (reqs : List CardRequirement)
    (hd : h.digits_of_precision = none) (hD : 0 ≤ h.deck_info.deck_size)
    (hv : ∀ r ∈ reqs, r.Valid) (hex : ∃ r ∈ reqs, 1 ≤ r.at_least) :
    create_probability_func h reqs 0 = Except.ok 0 := by
  rw [create_probability_func_ok h reqs 0 le_rfl hD, hd]
  have hsum1 : 1 ≤ (reqs.map fun r => r.at_least).sum := by
    refine one_le_sum_int _ ?_ ?_
    · intro x hx
      obtain ⟨r, hr, rfl⟩ := List.mem_map.mp hx
      exact (hv r hr).1
    · obtain ⟨r, hr, hr1⟩ := hex
      exact ⟨r.at_least, List.mem_map.mpr ⟨r, hr, rfl⟩, hr1⟩
  have hz : reqSum reqs
      (fun s => kfn (h.deck_info.deck_size - (reqs.map fun r => r.out_of).sum) (0 - s)) = 0 :=
    reqSum_eq_zero _ _ fun s hs => kfn_eq_zero (Or.inl (by omega))
  simp only [apply_precision]
  rw [hz]
  simp

theorem zero_draw_probability_zero_witness :
    create_probability_func ⟨⟨24, 4, 6⟩, none⟩ [⟨2, 4⟩] 0 = Except.ok 0 :=
  zero_draw_probability_zero ⟨⟨24, 4, 6⟩, none⟩ [⟨2, 4⟩] rfl (by decide) (by decide)
    ⟨⟨2, 4⟩, by decide⟩

/-- C5: the combinatorics primitive returns 0 without failing outside 0..n
(including negative n) and the exact binomial coefficient otherwise. -/
theorem k_from_n_combinations_spec (n k : Int) :
    ((k < 0 ∨ k > n) → k_from_n_combinations n k = Except.ok 0) ∧
    (0 ≤ k → k ≤ n →
      ∃ c : Nat, k_from_n_combinations n k = Except.ok c ∧
        c * (Nat.factorial k.toNat * Nat.factorial (n - k).toNat) = Nat.factorial n.toNat) := by
  constructor
  · intro hout
    unfold k_from_n_combinations
    simp [hout]
  · intro h0 h1
    refine ⟨n.toNat.choose k.toNat, ?_, ?_⟩
    · rw [k_from_n_combinations_eq_ok, kfn_eq_choose h0 h1]
    · have hsub : (n - k).toNat = n.toNat - k.toNat := by omega
      rw [hsub, ← mul_assoc]
      exact Nat.choose_mul_factorial_mul_factorial (show k.toNat ≤ n.toNat by omega)

theorem k_from_n_combinations_spec_witness :
    k_from_n_combinations 5 7 = Except.ok 0 ∧
    ∃ c : Nat, k_from_n_combinations 5 2 = Except.ok c ∧
      c * (Nat.factorial (2 : Int).toNat * Nat.factorial ((5 : Int) - 2).toNat) =
        Nat.factorial (5 : Int).toNat :=
  ⟨(k_from_n_combinations_spec 5 7).1 (by decide),
   (k_from_n_combinations_spec 5 2).2 (by decide) (by decide)⟩

/-- C6: evaluating a built probability function fails exactly when the draw
size is negative or exceeds the deck size. -/
theorem probability_func_error_iff (h : HandProbability) (reqs : List CardRequirement)
    (m : Int) :
    (∃ e, create_probability_func h reqs m = Except.error e) ↔
      m < 0 ∨ m > h.deck_info.deck_size := by
  constructor
  · intro ⟨e, he⟩
    by_contra hcon
    push_neg at hcon
    rw [create_probability_func_ok h reqs m (by omega) (by omega)] at he
    exact Except.noConfusion he
  · intro hor
    simp only [create_probability_func]
    rcases hor with hlt | hgt
    · exact ⟨_, by rw [if_pos hlt]⟩
    · by_cases hlt : m < 0
      · exact ⟨_, by rw [if_pos hlt]⟩
      · exact ⟨_, by rw [if_neg hlt, if_pos hgt]⟩

/-- C7: constructing a CardRequirement fails exactly for negative counts or
when at_least exceeds out_of. -/
theorem card_requirement_init_error_iff (a o : Int) :
    (∃ e, CardRequirement.init a o = Except.error e) ↔ a < 0 ∨ o < 0 ∨ a > o := by
  unfold CardRequirement.init
  by_cases h1 : a < 0 ∨ o < 0
  · simp only [if_pos h1]
    exact ⟨fun _ => by omega, fun _ => ⟨_, rfl⟩⟩
  · rw [if_neg h1]
    by_cases h2 : a > o
    · simp only [if_pos h2]
      exact ⟨fun _ => by omega, fun _ => ⟨_, rfl⟩⟩
    · simp only [if_neg h2]
      constructor
      · intro ⟨e, he⟩
        exact Except.noConfusion he
      · intro hor
        exact absurd hor (by omega)

/-- C10: the DeckInfo constructor accepts any integer arguments, performs no
validation, and stores the three fields unchanged. -/
theorem deck_info_init_total (a b c : Int) :
    DeckInfo.init a b c =
      Except.ok { deck_size := a, cards_of_rank_count := b, cards_of_suit_count := c } :=
  rfl

lemma vandermonde_kfn (M n m : Int) (hM : 0 ≤ M) (hn : 0 ≤ n) :
    ∑ c in Finset.Icc (0 : Int) n, kfn n c * kfn M (m - c) = kfn (M + n) m := by
  by_cases hm0 : m < 0
  · rw [kfn_eq_zero (Or.inl hm0)]
    refine Finset.sum_eq_zero fun c hc => ?_
    have hc0 := (Finset.mem_Icc.mp hc).1
    rw [show kfn M (m - c) = 0 from kfn_eq_zero (Or.inl (by omega)), mul_zero]
  · by_cases hm1 : m > M + n
    · rw [kfn_eq_zero (Or.inr hm1)]
      refine Finset.sum_eq_zero fun c hc => ?_
      have hc2 := (Finset.mem_Icc.mp hc).2
      rw [show kfn M (m - c) = 0 from kfn_eq_zero (Or.inr (by omega)), mul_zero]
    · push_neg at hm0 hm1
      have hA : ∑ c in Finset.Icc (0 : Int) n, kfn n c * kfn M (m - c)
          = ∑ i in Finset.range (n.toNat + 1), n.toNat.choose i * kfn M (m - i) := by
        rw [Int.Icc_eq_finset_map, Finset.sum_map]
        have he : ((n : Int) + 1 - 0).toNat = n.toNat + 1 := by omega
        rw [he]
        refine Finset.sum_congr rfl fun i hi => ?_
        have hi' : (i : Int) ≤ n := by
          have := Finset.mem_range.mp hi
          omega
        simp only [Function.Embedding.trans_apply, Nat.castEmbedding_apply,
          addLeftEmbedding_apply, zero_add]
        rw [kfn_eq_choose (by positivity) hi']
        simp
      have hB : ∑ i in Finset.range (m.toNat + 1), n.toNat.choose i * M.toNat.choose (m.toNat - i)
          = ∑ i in Finset.range (m.toNat + 1), n.toNat.choose i * kfn M (m - i) := by
        refine Finset.sum_congr rfl fun i hi => ?_
        have him : i ≤ m.toNat := by
          have := Finset.mem_range.mp hi
          omega
        by_cases hle : (m : Int) - i ≤ M
        · rw [kfn_eq_choose (show (0:Int) ≤ m - i by omega) hle]
          have ht : ((m : Int) - i).toNat = m.toNat - i := by omega
          rw [ht]
        · rw [show kfn M (m - (i : Int)) = 0 from kfn_eq_zero (Or.inr (by omega)),
            show M.toNat.choose (m.toNat - i) = 0 from Nat.choose_eq_zero_of_lt (by omega)]
      have hp1 : ∑ i in Finset.range (max (n.toNat + 1) (m.toNat + 1)),
            n.toNat.choose i * kfn M (m - i)
          = ∑ i in Finset.range (n.toNat + 1), n.toNat.choose i * kfn M (m - i) := by
        refine (Finset.sum_subset (Finset.range_subset.mpr (le_max_left _ _))
          fun i hiK hni => ?_).symm
        have h1 : ¬ i < n.toNat + 1 := fun hcon => hni (Finset.mem_range.mpr hcon)
        rw [show n.toNat.choose i = 0 from Nat.choose_eq_zero_of_lt (by omega), zero_mul]
      have hp2 : ∑ i in Finset.range (max (n.toNat + 1) (m.toNat + 1)),
            n.toNat.choose i * kfn M (m - i)
          = ∑ i in Finset.range (m.toNat + 1), n.toNat.choose i * kfn M (m - i) := by
        refine (Finset.sum_subset (Finset.range_subset.mpr (le_max_right _ _))
          fun i hiK hni => ?_).symm
        have h1 : ¬ i < m.toNat + 1 := fun hcon => hni (Finset.mem_range.mpr hcon)
        rw [show kfn M (m - (i : Int)) = 0 from kfn_eq_zero (Or.inl (by omega)), mul_zero]
      have hR : kfn (M + n) m = (n.toNat + M.toNat).choose m.toNat := by
        rw [kfn_eq_choose hm0 hm1]
        have : (M + n).toNat = n.toNat + M.toNat := by omega
        rw [this]
      rw [hA, ← hp1, hp2, ← hB, hR, Nat.add_choose_eq]
      exact (Finset.Nat.sum_antidiagonal_eq_sum_range_succ_mk
        (fun ij => n.toNat.choose ij.1 * M.toNat.choose ij.2) m.toNat).symm



lemma kfn_of_neg {n k : Int} (hn : n < 0) : kfn n k = 0 := kfn_eq_zero (by omega)

lemma reqSum_vandermonde (reqs : List CardRequirement) :
    (∀ r ∈ reqs, r.at_least = 0 ∧ 0 ≤ r.out_of) → ∀ (M m : Int), 0 ≤ M →
    reqSum reqs (fun s => kfn M (m - s)) =
      kfn (M + (reqs.map fun r => r.out_of).sum) m := by
  induction reqs with
  | nil =>
    intro _ M m hM
    simp [reqSum]
  | cons r rs ih =>
    intro hz M m hM
    have hr := hz r (List.mem_cons_self r rs)
    rw [reqSum, hr.1]
    have hstep : ∀ c : Int,
        reqSum rs (fun s => kfn M (m - (c + s))) =
          kfn (M + (rs.map fun x => x.out_of).sum) (m - c) := by
      intro c
      have hfun : (fun s => kfn M (m - (c + s))) = fun s => kfn M ((m - c) - s) := by
        funext s
        congr 1
        ring
      rw [hfun]
      exact ih (fun x hx => hz x (List.mem_cons_of_mem _ hx)) M (m - c) hM
    have hc1 : ∑ c in Finset.Icc (0 : Int) r.out_of,
          kfn r.out_of c * reqSum rs (fun s => kfn M (m - (c + s)))
        = ∑ c in Finset.Icc (0 : Int) r.out_of,
            kfn r.out_of c * kfn (M + (rs.map fun x => x.out_of).sum) (m - c) := by
      refine Finset.sum_congr rfl fun c _ => ?_
      rw [hstep c]
    have hsum0 : 0 ≤ (rs.map fun x => x.out_of).sum := by
      refine List.sum_nonneg fun x hx => ?_
      obtain ⟨y, hy, rfl⟩ := List.mem_map.mp hx
      exact (hz y (List.mem_cons_of_mem _ hy)).2
    rw [hc1, vandermonde_kfn _ _ _ (by omega) hr.2]
    have harg : M + (rs.map fun x => x.out_of).sum + r.out_of
        = M + ((r :: rs).map fun x => x.out_of).sum := by
      simp only [List.map_cons, List.sum_cons]
      ring
    rw [harg]

lemma reqSum_le_relax (reqs : List CardRequirement) :
    (∀ r ∈ reqs, r.Valid) → ∀ f : Int → Nat,
    reqSum reqs f ≤ reqSum (reqs.map fun r => ⟨0, r.out_of⟩) f := by
  induction reqs with
  | nil => intro _ f; exact le_rfl
  | cons r rs ih =>
    intro hv f
    simp only [List.map_cons, reqSum]
    have h1 : ∑ c in Finset.Icc r.at_least r.out_of,
          kfn r.out_of c * reqSum rs (fun s => f (c + s))
        ≤ ∑ c in Finset.Icc r.at_least r.out_of,
            kfn r.out_of c * reqSum (rs.map fun x => ⟨0, x.out_of⟩) (fun s => f (c + s)) :=
      Finset.sum_le_sum fun c _ =>
        Nat.mul_le_mul_left _ (ih (fun x hx => hv x (List.mem_cons_of_mem _ hx)) _)
    have h2 : ∑ c in Finset.Icc r.at_least r.out_of,
          kfn r.out_of c * reqSum (rs.map fun x => ⟨0, x.out_of⟩) (fun s => f (c + s))
        ≤ ∑ c in Finset.Icc (0 : Int) r.out_of,
            kfn r.out_of c * reqSum (rs.map fun x => ⟨0, x.out_of⟩) (fun s => f (c + s)) :=
      Finset.sum_le_sum_of_subset (Finset.Icc_subset_Icc (hv r (List.mem_cons_self r rs)).1 le_rfl)
    exact le_trans h1 h2

lemma reqSum_le_kfn (reqs : List CardRequirement) (hv : ∀ r ∈ reqs, r.Valid) (D m : Int) :
    reqSum reqs (fun s => kfn (D - (reqs.map fun r => r.out_of).sum) (m - s)) ≤ kfn D m := by
  by_cases hDt : D - (reqs.map fun r => r.out_of).sum < 0
  · rw [reqSum_eq_zero _ _ fun s _ => kfn_of_neg hDt]
    exact Nat.zero_le _
  · push_neg at hDt
    refine le_trans (reqSum_le_relax reqs hv _) ?_
    have hz : ∀ x ∈ reqs.map fun r => (⟨0, r.out_of⟩ : CardRequirement),
        x.at_least = 0 ∧ 0 ≤ x.out_of := by
      intro x hx
      obtain ⟨y, hy, rfl⟩ := List.mem_map.mp hx
      exact ⟨rfl, le_trans (hv y hy).1 (hv y hy).2⟩
    have hmm : ((reqs.map fun r => (⟨0, r.out_of⟩ : CardRequirement)).map
        fun x => x.out_of) = reqs.map fun r => r.out_of := by
      rw [List.map_map]
      rfl
    have := reqSum_vandermonde _ hz (D - (reqs.map fun r => r.out_of).sum) m hDt
    rw [hmm] at this
    rw [this]
    have harg : D - (reqs.map fun r => r.out_of).sum + (reqs.map fun r => r.out_of).sum = D := by
      ring
    rw [harg]



lemma round_half_even_nonneg {q : ℚ} (h : 0 ≤ q) : 0 ≤ round_half_even q := by
  have hf : 0 ≤ ⌊q⌋ := Int.floor_nonneg.mpr h
  unfold round_half_even
  split
  · exact hf
  · split
    · omega
    · split
      · exact hf
      · omega

lemma round_half_even_le_of_le {q : ℚ} {B : Int} (h : q ≤ B) : round_half_even q ≤ B := by
  have hfl : ⌊q⌋ ≤ B := by
    calc ⌊q⌋ ≤ ⌊(B : ℚ)⌋ := Int.floor_le_floor h
    _ = B := Int.floor_intCast B
  have hq : (⌊q⌋ : ℚ) ≤ q := Int.floor_le q
  unfold round_half_even
  split
  · exact hfl
  · have hlt : (⌊q⌋ : ℚ) + 1 / 2 ≤ q := by
      rename_i h1
      push_neg at h1
      linarith
    have hstrict : ⌊q⌋ < B := by
      by_contra hcon
      have hEq : ⌊q⌋ = B := by omega
      rw [hEq] at hlt
      have : (B : ℚ) < (B : ℚ) + 1 / 2 := by linarith
      linarith
    split
    · omega
    · split
      · exact hfl
      · omega

lemma python_round_unit {q : ℚ} (d : Int) (h0 : 0 ≤ q) (h1 : q ≤ 1) :
    0 ≤ python_round q d ∧ python_round q d ≤ 1 := by
  have hb : (0 : ℚ) < 10 := by norm_num
  have hpow : (0 : ℚ) < 10 ^ d := zpow_pos hb d
  have hx0 : 0 ≤ q * 10 ^ d := mul_nonneg h0 (le_of_lt hpow)
  constructor
  · exact div_nonneg (by exact_mod_cast round_half_even_nonneg hx0) (le_of_lt hpow)
  · by_cases hd : 0 ≤ d
    · obtain ⟨e, rfl⟩ := Int.eq_ofNat_of_zero_le hd
      have hle : q * 10 ^ (e : Int) ≤ ((10 ^ e : Int) : ℚ) := by
        push_cast
        rw [zpow_natCast]
        nlinarith [pow_pos hb e]
      have hr := round_half_even_le_of_le hle
      rw [python_round, div_le_one hpow]
      calc (round_half_even (q * 10 ^ (e : Int)) : ℚ) ≤ ((10 ^ e : Int) : ℚ) := by
            exact_mod_cast hr
        _ = 10 ^ (e : Int) := by
            push_cast
            rw [zpow_natCast]
    · push_neg at hd
      have hsmall : q * 10 ^ d < 1 / 2 := by
        have h10 : (10 : ℚ) ^ d ≤ 10 ^ (-1 : Int) := by
          refine zpow_le_zpow_right₀ (by norm_num) (by omega)
        have hinv : (10 : ℚ) ^ (-1 : Int) = 1 / 10 := by norm_num
        have hq10 : q * 10 ^ d ≤ 10 ^ d := by
          nlinarith [mul_nonneg (sub_nonneg.mpr h1) (le_of_lt hpow)]
        rw [hinv] at h10
        linarith
      have hfl : ⌊q * 10 ^ d⌋ = 0 := by
        rw [Int.floor_eq_zero_iff]
        constructor
        · exact hx0
        · linarith
      have hrz : round_half_even (q * 10 ^ d) = 0 := by
        unfold round_half_even
        rw [hfl]
        rw [if_pos]
        push_cast
        linarith
      rw [python_round, hrz]
      simp



/-- C2: every value returned by a built probability function lies in unit
interval, for any configured rounding precision, even when the requirements
oversubscribe the deck. -/
theorem probability_in_unit_interval (h : HandProbability) (reqs : List CardRequirement)
    (m : Int) (hv : ∀ r ∈ reqs, r.Valid) (h0 : 0 ≤ m) (h1 : m ≤ h.deck_info.deck_size) :
    ∃ p : ℚ, create_probability_func h reqs m = Except.ok p ∧ 0 ≤ p ∧ p ≤ 1 := by
  rw [create_probability_func_ok h reqs m h0 h1]
  refine ⟨_, rfl, ?_⟩
  have hden : (0 : ℚ) < (kfn h.deck_info.deck_size m : ℚ) := by
    exact_mod_cast kfn_pos h0 h1
  have hq0 : 0 ≤ (reqSum reqs
        (fun s => kfn (h.deck_info.deck_size - (reqs.map fun r => r.out_of).sum) (m - s)) : ℚ) /
      (kfn h.deck_info.deck_size m : ℚ) :=
    div_nonneg (Nat.cast_nonneg _) (le_of_lt hden)
  have hq1 : (reqSum reqs
        (fun s => kfn (h.deck_info.deck_size - (reqs.map fun r => r.out_of).sum) (m - s)) : ℚ) /
      (kfn h.deck_info.deck_size m : ℚ) ≤ 1 := by
    rw [div_le_one hden]
    exact_mod_cast reqSum_le_kfn reqs hv h.deck_info.deck_size m
  rcases Option.eq_none_or_eq_some h.digits_of_precision with hnone | ⟨d, hd⟩
  · rw [hnone]
    exact ⟨hq0, hq1⟩
  · rw [hd]
    exact python_round_unit d hq0 hq1

theorem probability_in_unit_interval_witness :
    ∃ p : ℚ, create_probability_func ⟨⟨24, 4, 6⟩, some 4⟩ [⟨4, 30⟩] 3 = Except.ok p ∧
      0 ≤ p ∧ p ≤ 1 :=
  probability_in_unit_interval ⟨⟨24, 4, 6⟩, some 4⟩ [⟨4, 30⟩] 3 (by decide) (by decide)
    (by decide)

/-- The multivariate hypergeometric lattice sum exactly as the specification
formula states it, for `n` requirements with feasible ranges `[A i, O i]`:
the sum over every tuple of per-requirement counts, each ranging over its
feasible interval, of the product of per-category binomial coefficients times
the binomial coefficient choosing the remaining cards outside every tracked
category, the whole deck minus `∑ O i` cards. -/
def spec_lattice_sum (deck_size : Int) (n : Nat) (A O : Fin n → Int) (m : Int) : Nat :=
  ∑ c in Fintype.piFinset fun i => Finset.Icc (A i) (O i),
    (∏ i, kfn (O i) (c i)) * kfn (deck_size - ∑ i, O i) (m - ∑ i, c i)

/-- The probability value the specification prescribes for a requirement
list: the lattice sum over the tuples of feasible counts, normalised by the
number of ways to draw `m` cards from the whole deck. -/
def spec_probability (deck : DeckInfo) (reqs : List CardRequirement) (m : Int) : ℚ :=
  (spec_lattice_sum deck.deck_size reqs.length (fun i => (reqs.get i).at_least)
      (fun i => (reqs.get i).out_of) m : ℚ) / (kfn deck.deck_size m : ℚ)

/-- Generic form of the lattice sum with an abstract remainder weight. -/
def piLatticeSum (n : Nat) (A O : Fin n → Int) (f : Int → Nat) : Nat :=
  ∑ c in Fintype.piFinset fun i => Finset.Icc (A i) (O i),
    (∏ i, kfn (O i) (c i)) * f (∑ i, c i)

lemma sum_piFinset_succ {r : Nat} (F : Fin (r + 1) → Finset Int)
    (g : (Fin (r + 1) → Int) → Nat) :
    ∑ c in Fintype.piFinset F, g c =
      ∑ c0 in F 0, ∑ ct in Fintype.piFinset (fun i : Fin r => F i.succ),
        g (Fin.cons c0 ct) := by
  refine Eq.trans ?_ (Finset.sum_product (F 0)
    (Fintype.piFinset fun i : Fin r => F i.succ) (fun p => g (Fin.cons p.1 p.2)))
  refine Finset.sum_nbij' (fun c => (c 0, Fin.tail c)) (fun p => Fin.cons p.1 p.2)
    ?_ ?_ ?_ ?_ ?_
  · intro c hc
    have hmem := Fintype.mem_piFinset.mp hc
    exact Finset.mem_product.mpr ⟨hmem 0, Fintype.mem_piFinset.mpr fun i => hmem i.succ⟩
  · intro p hp
    have hmem := Finset.mem_product.mp hp
    refine Fintype.mem_piFinset.mpr fun i => ?_
    refine Fin.cases ?_ ?_ i
    · simp only [Fin.cons_zero]
      exact hmem.1
    · intro j
      simp only [Fin.cons_succ]
      exact Fintype.mem_piFinset.mp hmem.2 j
  · intro c _
    exact Fin.cons_self_tail c
  · intro p _
    simp only [Fin.cons_zero, Fin.tail_cons]
  · intro c _
    simp only [Fin.cons_self_tail]

lemma piLatticeSum_succ (n : Nat) (A O : Fin (n + 1) → Int) (f : Int → Nat) :
    piLatticeSum (n + 1) A O f =
      ∑ c0 in Finset.Icc (A 0) (O 0), kfn (O 0) c0 *
        piLatticeSum n (fun i => A i.succ) (fun i => O i.succ) (fun s => f (c0 + s)) := by
  rw [piLatticeSum, sum_piFinset_succ]
  refine Finset.sum_congr rfl fun c0 _ => ?_
  rw [piLatticeSum, Finset.mul_sum]
  refine Finset.sum_congr rfl fun ct _ => ?_
  rw [Fin.prod_univ_succ, Fin.sum_univ_succ]
  simp only [Fin.cons_zero, Fin.cons_succ]
  ring

lemma reqSum_eq_piLatticeSum (reqs : List CardRequirement) :
    ∀ f : Int → Nat,
    reqSum reqs f = piLatticeSum reqs.length (fun i => (reqs.get i).at_least)
      (fun i => (reqs.get i).out_of) f := by
  induction reqs with
  | nil =>
    intro f
    rw [reqSum]
    have huniv : (Finset.univ : Finset (Fin ([] : List CardRequirement).length)) = ∅ :=
      Finset.eq_empty_of_forall_not_mem fun i _ => (Nat.not_lt_zero i.1 i.2).elim
    rw [piLatticeSum]
    have hterm : ∀ c : Fin ([] : List CardRequirement).length → Int,
        (∏ i, kfn (([] : List CardRequirement).get i).out_of (c i)) * f (∑ i, c i) = f 0 := by
      intro c
      rw [huniv, Finset.prod_empty, Finset.sum_empty, one_mul]
    rw [Finset.sum_congr rfl fun c _ => hterm c, Finset.sum_const, Fintype.card_piFinset,
      huniv, Finset.prod_empty, one_smul]
  | cons r rs ih =>
    intro f
    show reqSum (r :: rs) f = piLatticeSum (rs.length + 1)
      (fun i => ((r :: rs).get i).at_least) (fun i => ((r :: rs).get i).out_of) f
    rw [reqSum, piLatticeSum_succ]
    refine Finset.sum_congr rfl fun c0 _ => ?_
    rw [ih fun s => f (c0 + s)]
    rfl



lemma list_sum_out_of_eq (reqs : List CardRequirement) :
    (reqs.map fun r => r.out_of).sum = ∑ i : Fin reqs.length, (reqs.get i).out_of := by
  rw [← Fin.sum_univ_get' reqs fun r => r.out_of]
  refine Finset.sum_congr rfl fun i _ => ?_
  rw [List.get_eq_getElem]

/-- C1: on its valid domain the function built by `create_probability_func`
returns exactly the multivariate hypergeometric at-least probability that the
specification formula prescribes. -/
theorem create_probability_func_eq_spec (h : HandProbability) (reqs : List CardRequirement)
    (m : Int) (hd : h.digits_of_precision = none) (_hne : reqs ≠ [])
    (_hv : ∀ r ∈ reqs, r.Valid) (h0 : 0 ≤ m) (h1 : m ≤ h.deck_info.deck_size) :
    create_probability_func h reqs m = Except.ok (spec_probability h.deck_info reqs m) := by
  rw [create_probability_func_ok h reqs m h0 h1, hd]
  simp only [apply_precision]
  rw [spec_probability]
  congr 2
  rw [reqSum_eq_piLatticeSum reqs, spec_lattice_sum, piLatticeSum, list_sum_out_of_eq]

theorem create_probability_func_eq_spec_witness :
    create_probability_func ⟨⟨24, 4, 6⟩, none⟩ [⟨2, 4⟩] 2 =
      Except.ok (spec_probability ⟨24, 4, 6⟩ [⟨2, 4⟩] 2) :=
  create_probability_func_eq_spec ⟨⟨24, 4, 6⟩, none⟩ [⟨2, 4⟩] 2 rfl (by decide) (by decide)
    (by decide) (by decide)

lemma kfn_mul_sub_toNat {n : Int} (hn : 0 ≤ n) (c : Int) :
    kfn n c * (n - c).toNat = kfn n (c + 1) * (c + 1).toNat := by
  by_cases hc0 : c < 0
  · rw [kfn_eq_zero (Or.inl hc0), zero_mul]
    have h1 : (c + 1).toNat = 0 := by omega
    rw [h1, mul_zero]
  · push_neg at hc0
    by_cases hcn : n ≤ c
    · have h1 : (n - c).toNat = 0 := by omega
      rw [h1, mul_zero, kfn_eq_zero (Or.inr (by omega)), zero_mul]
    · push_neg at hcn
      rw [kfn_eq_choose hc0 (by omega), kfn_eq_choose (by omega) (by omega)]
      have h1 : (c + 1).toNat = c.toNat + 1 := by omega
      have h2 : (n - c).toNat = n.toNat - c.toNat := by omega
      rw [h1, h2]
      exact (Nat.choose_succ_right_eq n.toNat c.toNat).symm

lemma sum_Icc_top (a b : Int) (h : a ≤ b + 1) (g : Int → Nat) :
    ∑ c in Finset.Icc a (b + 1), g c = (∑ c in Finset.Icc a b, g c) + g (b + 1) := by
  have hins : Finset.Icc a (b + 1) = insert (b + 1) (Finset.Icc a b) := by
    ext x
    simp only [Finset.mem_Icc, Finset.mem_insert]
    omega
  have hnot : (b + 1) ∉ Finset.Icc a b := by
    simp only [Finset.mem_Icc]
    omega
  rw [hins, Finset.sum_insert hnot, add_comm]

lemma single_lattice_sum_step (D : Int) (r : CardRequirement) (m : Int)
    (ha : 0 ≤ r.at_least) (hn : r.at_least ≤ r.out_of) (hm0 : 0 ≤ m) (hmD : m < D) :
    single_lattice_sum D r m * (D - m).toNat ≤
      single_lattice_sum D r (m + 1) * (m + 1).toNat := by
  set a := r.at_least with ha_def
  set n := r.out_of with hn_def
  have hn0 : 0 ≤ n := le_trans ha hn
  by_cases hDn : D - n < 0
  · have hz : single_lattice_sum D r m = 0 := by
      rw [single_lattice_sum]
      exact Finset.sum_eq_zero fun c _ => by rw [kfn_of_neg hDn, mul_zero]
    rw [hz, zero_mul]
    exact Nat.zero_le _
  · push_neg at hDn
    -- split every left term using D - m = (n - c) + ((D - n) - (m - c))
    have hsplitL : ∀ c ∈ Finset.Icc a n,
        kfn n c * kfn (D - n) (m - c) * (D - m).toNat
          = kfn n (c + 1) * (c + 1).toNat * kfn (D - n) (m - c)
            + kfn n c * (kfn (D - n) (m + 1 - c) * (m + 1 - c).toNat) := by
      intro c hc
      obtain ⟨hca, hcn⟩ := Finset.mem_Icc.mp hc
      have hI2 : kfn (D - n) (m - c) * ((D - n) - (m - c)).toNat
          = kfn (D - n) (m + 1 - c) * (m + 1 - c).toNat := by
        have := kfn_mul_sub_toNat hDn (m - c)
        have harg : m - c + 1 = m + 1 - c := by ring
        rwa [harg] at this
      by_cases hzero : kfn (D - n) (m - c) = 0
      · rw [hzero, mul_zero, zero_mul, mul_zero, zero_add, ← hI2, hzero, zero_mul, mul_zero]
      · have hin : 0 ≤ m - c ∧ m - c ≤ D - n := by
          by_contra hcon
          exact hzero (kfn_eq_zero (by omega))
        have htn : (D - m).toNat = (n - c).toNat + ((D - n) - (m - c)).toNat := by omega
        calc kfn n c * kfn (D - n) (m - c) * (D - m).toNat
            = kfn n c * (n - c).toNat * kfn (D - n) (m - c)
              + kfn n c * (kfn (D - n) (m - c) * ((D - n) - (m - c)).toNat) := by
              rw [htn]
              ring
          _ = kfn n (c + 1) * (c + 1).toNat * kfn (D - n) (m - c)
              + kfn n c * (kfn (D - n) (m + 1 - c) * (m + 1 - c).toNat) := by
              rw [kfn_mul_sub_toNat hn0 c, hI2]
    -- split every right term using m + 1 = c + (m + 1 - c)
    have hsplitR : ∀ c ∈ Finset.Icc a n,
        kfn n c * kfn (D - n) (m + 1 - c) * (m + 1).toNat
          = kfn n c * c.toNat * kfn (D - n) (m + 1 - c)
            + kfn n c * (kfn (D - n) (m + 1 - c) * (m + 1 - c).toNat) := by
      intro c hc
      obtain ⟨hca, hcn⟩ := Finset.mem_Icc.mp hc
      by_cases hzero : kfn (D - n) (m + 1 - c) = 0
      · rw [hzero]
        simp
      · have hin : 0 ≤ m + 1 - c ∧ m + 1 - c ≤ D - n := by
          by_contra hcon
          exact hzero (kfn_eq_zero (by omega))
        have htn : (m + 1).toNat = c.toNat + (m + 1 - c).toNat := by omega
        rw [htn]
        ring
    have hL : single_lattice_sum D r m * (D - m).toNat
        = (∑ c in Finset.Icc a n, kfn n (c + 1) * (c + 1).toNat * kfn (D - n) (m - c))
          + ∑ c in Finset.Icc a n, kfn n c * (kfn (D - n) (m + 1 - c) * (m + 1 - c).toNat) := by
      rw [single_lattice_sum, Finset.sum_mul, Finset.sum_congr rfl hsplitL,
        Finset.sum_add_distrib]
    have hR : single_lattice_sum D r (m + 1) * (m + 1).toNat
        = (∑ c in Finset.Icc a n, kfn n c * c.toNat * kfn (D - n) (m + 1 - c))
          + ∑ c in Finset.Icc a n, kfn n c * (kfn (D - n) (m + 1 - c) * (m + 1 - c).toNat) := by
      rw [single_lattice_sum, Finset.sum_mul, Finset.sum_congr rfl hsplitR,
        Finset.sum_add_distrib]
    rw [hL, hR]
    refine Nat.add_le_add_right ?_ _
    -- reindex the left first sum by c ↦ c + 1
    have hshift : ∑ c in Finset.Icc a n, kfn n (c + 1) * (c + 1).toNat * kfn (D - n) (m - c)
        = ∑ c in Finset.Icc (a + 1) (n + 1), kfn n c * c.toNat * kfn (D - n) (m + 1 - c) := by
      rw [← Finset.map_add_right_Icc a n 1, Finset.sum_map]
      refine Finset.sum_congr rfl fun c _ => ?_
      simp only [addRightEmbedding_apply]
      have harg : m - c = m + 1 - (c + 1) := by ring
      rw [harg]
    rw [hshift, sum_Icc_top (a + 1) n (by omega) _]
    rw [show kfn n (n + 1) = 0 from kfn_eq_zero (Or.inr (by omega)), zero_mul, zero_mul, add_zero]
    exact Finset.sum_le_sum_of_subset (Finset.Icc_subset_Icc (by omega) le_rfl)



lemma single_prob_step (D : Int) (r : CardRequirement) (m : Int)
    (ha : 0 ≤ r.at_least) (hn : r.at_least ≤ r.out_of) (hm0 : 0 ≤ m) (hmD : m < D) :
    (single_lattice_sum D r m : ℚ) / (kfn D m : ℚ) ≤
      (single_lattice_sum D r (m + 1) : ℚ) / (kfn D (m + 1) : ℚ) := by
  have hD0 : 0 ≤ D := by omega
  have hden1 : 0 < kfn D m := kfn_pos hm0 (by omega)
  have hden2 : 0 < kfn D (m + 1) := kfn_pos (by omega) (by omega)
  rw [div_le_div_iff₀ (by exact_mod_cast hden1) (by exact_mod_cast hden2)]
  have key : single_lattice_sum D r m * kfn D (m + 1) * (m + 1).toNat ≤
      single_lattice_sum D r (m + 1) * kfn D m * (m + 1).toNat := by
    calc single_lattice_sum D r m * kfn D (m + 1) * (m + 1).toNat
        = single_lattice_sum D r m * (kfn D (m + 1) * (m + 1).toNat) := by ring
      _ = single_lattice_sum D r m * (kfn D m * (D - m).toNat) := by
          rw [← kfn_mul_sub_toNat hD0 m]
      _ = single_lattice_sum D r m * (D - m).toNat * kfn D m := by ring
      _ ≤ single_lattice_sum D r (m + 1) * (m + 1).toNat * kfn D m :=
          Nat.mul_le_mul_right _ (single_lattice_sum_step D r m ha hn hm0 hmD)
      _ = single_lattice_sum D r (m + 1) * kfn D m * (m + 1).toNat := by ring
  have hp : 0 < (m + 1).toNat := by omega
  exact_mod_cast Nat.le_of_mul_le_mul_right key hp

lemma single_prob_mono (D : Int) (r : CardRequirement)
    (ha : 0 ≤ r.at_least) (hn : r.at_least ≤ r.out_of) :
    ∀ (k : Nat) (m : Int), 0 ≤ m → m + k ≤ D →
    (single_lattice_sum D r m : ℚ) / (kfn D m : ℚ) ≤
      (single_lattice_sum D r (m + k) : ℚ) / (kfn D (m + k) : ℚ) := by
  intro k
  induction k with
  | zero =>
    intro m h0 h1
    norm_num
  | succ k ih =>
    intro m h0 h1
    have hk : ((k + 1 : Nat) : Int) = (k : Int) + 1 := by push_cast; ring
    have hstep := single_prob_step D r (m + k) ha hn (by positivity) (by omega)
    have harg : m + (k : Int) + 1 = m + ((k + 1 : Nat) : Int) := by push_cast; ring
    rw [harg] at hstep
    exact le_trans (ih m h0 (by omega)) hstep

lemma reqSum_single (r : CardRequirement) (E m : Int) :
    reqSum [r] (fun s => kfn E (m - s)) =
      ∑ c in Finset.Icc r.at_least r.out_of, kfn r.out_of c * kfn E (m - c) := by
  rw [reqSum]
  refine Finset.sum_congr rfl fun c _ => ?_
  rw [reqSum]
  norm_num

/-- C3: for a single valid requirement and no configured rounding, the built
probability function is monotone in the draw size. -/
theorem probability_monotone_single_requirement (h : HandProbability)
    (r : CardRequirement) (m1 m2 : Int) (hd : h.digits_of_precision = none)
    (hvr : r.Valid) (h0 : 0 ≤ m1) (h12 : m1 ≤ m2) (h2 : m2 ≤ h.deck_info.deck_size) :
    ∃ p1 p2 : ℚ, create_probability_func h [r] m1 = Except.ok p1 ∧
      create_probability_func h [r] m2 = Except.ok p2 ∧ p1 ≤ p2 := by
  rw [create_probability_func_ok h [r] m1 (by omega) (by omega),
    create_probability_func_ok h [r] m2 (by omega) (by omega), hd]
  have htot : (List.map (fun x => x.out_of) [r]).sum = r.out_of := by simp
  refine ⟨_, _, rfl, rfl, ?_⟩
  simp only [apply_precision, htot, reqSum_single]
  have hm2 : m2 = m1 + ((m2 - m1).toNat : Int) := by omega
  have := single_prob_mono h.deck_info.deck_size r hvr.1 hvr.2 (m2 - m1).toNat m1 h0
    (by omega)
  rw [← hm2] at this
  simp only [single_lattice_sum] at this
  exact this

theorem probability_monotone_single_requirement_witness :
    ∃ p1 p2 : ℚ, create_probability_func ⟨⟨24, 4, 6⟩, none⟩ [⟨2, 4⟩] 3 = Except.ok p1 ∧
      create_probability_func ⟨⟨24, 4, 6⟩, none⟩ [⟨2, 4⟩] 10 = Except.ok p2 ∧ p1 ≤ p2 :=
  probability_monotone_single_requirement ⟨⟨24, 4, 6⟩, none⟩ ⟨2, 4⟩ 3 10 rfl
    (by decide) (by decide) (by decide) (by decide)

lemma reqSum_perm {reqs1 reqs2 : List CardRequirement} (hp : reqs1.Perm reqs2) :
    ∀ f : Int → Nat, reqSum reqs1 f = reqSum reqs2 f := by
  induction hp with
  | nil => intro f; rfl
  | cons x hl ih =>
    intro f
    rw [reqSum, reqSum]
    refine Finset.sum_congr rfl fun c _ => ?_
    rw [ih fun s => f (c + s)]
  | swap x y l =>
    intro f
    calc reqSum (y :: x :: l) f
        = ∑ c in Finset.Icc y.at_least y.out_of, ∑ d in Finset.Icc x.at_least x.out_of,
            kfn y.out_of c * (kfn x.out_of d * reqSum l fun s => f (c + (d + s))) := by
          rw [reqSum]
          refine Finset.sum_congr rfl fun c _ => ?_
          rw [reqSum, Finset.mul_sum]
      _ = ∑ d in Finset.Icc x.at_least x.out_of, ∑ c in Finset.Icc y.at_least y.out_of,
            kfn y.out_of c * (kfn x.out_of d * reqSum l fun s => f (c + (d + s))) :=
          Finset.sum_comm
      _ = reqSum (x :: y :: l) f := by
          rw [reqSum]
          refine Finset.sum_congr rfl fun d _ => ?_
          rw [reqSum, Finset.mul_sum]
          refine Finset.sum_congr rfl fun c _ => ?_
          have hf : (fun s => f (c + (d + s))) = fun s => f (d + (c + s)) := by
            funext s
            congr 1
            ring
          rw [hf]
          ring
  | trans h1 h2 ih1 ih2 =>
    intro f
    rw [ih1 f, ih2 f]

/-- C9: two requirement lists that are permutations of one another yield
probability functions that agree at every valid draw size. -/
theorem probability_perm_invariant (h : HandProbability) (reqs1 reqs2 : List CardRequirement)
    (hp : reqs1.Perm reqs2) (m : Int) (h0 : 0 ≤ m) (h1 : m ≤ h.deck_info.deck_size) :
    create_probability_func h reqs1 m = create_probability_func h reqs2 m := by
  rw [create_probability_func_ok h reqs1 m h0 h1, create_probability_func_ok h reqs2 m h0 h1]
  have htot : (reqs1.map fun r => r.out_of).sum = (reqs2.map fun r => r.out_of).sum :=
    (hp.map fun r => r.out_of).sum_eq
  rw [htot, reqSum_perm hp]

theorem probability_perm_invariant_witness :
    create_probability_func ⟨⟨24, 4, 6⟩, none⟩ [⟨2, 4⟩, ⟨1, 6⟩] 5 =
      create_probability_func ⟨⟨24, 4, 6⟩, none⟩ [⟨1, 6⟩, ⟨2, 4⟩] 5 :=
  probability_perm_invariant ⟨⟨24, 4, 6⟩, none⟩ [⟨2, 4⟩, ⟨1, 6⟩] [⟨1, 6⟩, ⟨2, 4⟩]
    (by decide) 5 (by decide) (by decide)

end LiarsPoker
